import Mathlib

/-!
Verification development for the country-name normalization, join and
correlation pipeline of pages/04_GNP.py (MBTI-by-country dashboard).

The shallow embedding below translates the pipeline stages of that page:

* normalize_country_name (lines 22-58): strip, whitespace collapse, alias table;
* the Country-column check and Country_norm assignment (lines 120-135);
* the inner merge with validate m:1 and the match reporting (lines 144-160);
* the optional log1p transform of the economic value (lines 162-169);
* compute_correlations (lines 60-84) and the display sort (lines 177-179).

Numeric cells are modelled as Option Real, where none stands for a missing
value (NaN), since dropna and the merge only inspect missingness and key
equality, never the numeric magnitude.  The scipy statistics routines called
by the page are not part of the repository; they are modelled by their
standard mathematical definitions (Pearson product-moment correlation, the
beta-distribution form of the two-sided p-value, average ranks for Spearman),
with NaN results for constant input, as the library documents.
-/

/-- Whitespace characters recognized by the model of str.strip and of the
regex class of whitespace used in str.replace (space, tab, newline, carriage
return, vertical tab, form feed). -/
def isPyWs (c : Char) : Bool :=
  c == ' ' || c == '\t' || c == '\n' || c == '\r' || c == '\x0b' || c == '\x0c'

/-- Model of the regex replacement of every whitespace run by a single
space, as applied on a cell by str.replace with a whitespace-class pattern
(line 28 of pages/04_GNP.py). -/
def collapseWs : List Char → List Char
  | [] => []
  | [c] => if isPyWs c then [' '] else [c]
  | c1 :: c2 :: rest =>
    if isPyWs c1 && isPyWs c2 then collapseWs (c2 :: rest)
    else if isPyWs c1 then ' ' :: collapseWs (c2 :: rest)
    else c1 :: collapseWs (c2 :: rest)

/-- Model of str.strip on a cell: drop leading and trailing whitespace. -/
def pyStrip (l : List Char) : List Char :=
  ((l.dropWhile isPyWs).reverse.dropWhile isPyWs).reverse

/-- String wrapper of pyStrip. -/
def stripStr (s : String) : String := String.mk (pyStrip s.data)

/-- String wrapper of collapseWs. -/
def collapseStr (s : String) : String := String.mk (collapseWs s.data)

/-- Strip followed by whitespace collapse, on character lists. -/
def normWsChars (l : List Char) : List Char := collapseWs (pyStrip l)

/-- The fixed alias table repl of normalize_country_name
(lines 29-56 of pages/04_GNP.py), in source order. -/
def countryRepl : List (String × String) :=
  [("United States", "United States of America"),
   ("Russia", "Russian Federation"),
   ("South Korea", "Korea, Republic of"),
   ("North Korea", "Korea, Democratic People\x27s Republic of"),
   ("Vietnam", "Viet Nam"),
   ("Czech Republic", "Czechia"),
   ("Ivory Coast", "Côte d\x27Ivoire"),
   ("Tanzania", "United Republic of Tanzania"),
   ("Syria", "Syrian Arab Republic"),
   ("Macau", "Macao"),
   ("Hong Kong", "Hong Kong SAR, China"),
   ("Iran", "Iran, Islamic Republic of"),
   ("Moldova", "Moldova, Republic of"),
   ("Laos", "Lao People\x27s Democratic Republic"),
   ("Bolivia", "Bolivia (Plurinational State of)"),
   ("Venezuela", "Venezuela (Bolivarian Republic of)"),
   ("Brunei", "Brunei Darussalam"),
   ("Cape Verde", "Cabo Verde"),
   ("Congo (Kinshasa)", "Congo, the Democratic Republic of the"),
   ("Congo (Brazzaville)", "Congo"),
   ("Micronesia", "Micronesia, Federated States of"),
   ("The Bahamas", "Bahamas"),
   ("Gambia", "Gambia, The"),
   ("Eswatini", "Swaziland"),
   ("Burma", "Myanmar"),
   ("Kyrgyzstan", "Kyrgyz Republic")]

/-- Lookup of a whole cell value in an alias table, as Series.replace does
with a dict argument: only exact full-value matches are replaced. -/
def replLookup (s : String) : List (String × String) → Option String
  | [] => none
  | (k, v) :: rest => if s = k then some v else replLookup s rest

/-- Alias substitution step of the normalizer: replace the cell by its
alias when the whole value is a key of the table, else keep it. -/
def aliasSub (s : String) : String := (replLookup s countryRepl).getD s

/-- The per-cell effect of normalize_country_name: strip, collapse
whitespace runs, then alias substitution. -/
def normalizeCountry (s : String) : String := aliasSub (collapseStr (stripStr s))

/-- normalize_country_name of pages/04_GNP.py lines 22-58, as the
composition of the three vectorized (element-wise) Series steps:
strip, whitespace-collapse, dict replace. -/
def normalize_country_name (l : List String) : List String :=
  ((l.map stripStr).map collapseStr).map aliasSub

/-- A list with no whitespace character other than a plain space. -/
def wsBlank (l : List Char) : Bool := l.all fun c => !isPyWs c || c == ' '

/-- No two adjacent whitespace characters. -/
def noWsRun : List Char → Bool
  | a :: b :: t => (!(isPyWs a && isPyWs b)) && noWsRun (b :: t)
  | _ => true

/-- First character, when present, is not whitespace. -/
def headOkWs : List Char → Bool
  | [] => true
  | c :: _ => !isPyWs c

/-- Last character, when present, is not whitespace. -/
def endOkWs (l : List Char) : Bool :=
  match l.getLast? with
  | none => true
  | some c => !isPyWs c

/-- The personality (MBTI) input table: whether the raw table has a
Country column, the Country cells, the names of the numeric
personality-type columns, and per row the cells of those columns
(none models NaN). -/
structure MbtiTable where
  hasCountryCol : Bool
  countries : List String
  mbtiCols : List String
  ratios : List (List (Option ℝ))

/-- The economic input table: whether the raw table has a Country column,
the Country cells, and the cells of the selected economic indicator
column (none models NaN). -/
structure GnpTable where
  hasCountryCol : Bool
  countries : List String
  y : List (Option ℝ)

/-- Fatal outcomes of the join stage: the st.stop on a missing MBTI
Country column (lines 120-122); the ValueError pd.merge raises when the
key columns have incompatible dtypes (object country strings against the
float64 NaN column produced at line 135 when the economic table has no
Country column) -- a check run on the two key columns before validate and
skipped when one of them is empty; and the MergeError raised by
validate m:1 on duplicate right-side keys (line 149). -/
inductive PipeErr where
  | countryMissing : PipeErr
  | keyTypeMismatch : PipeErr
  | mergeKeysNotUnique : PipeErr

/-- One row of the joined table: raw country, normalized country, and the
named numeric cells (the personality columns plus Y_value, and Y_trans
after the log transform). -/
structure JoinRow where
  country : String
  countryNorm : String
  cells : List (String × Option ℝ)

/-- Access of a named numeric cell of a joined row, as column selection by
name does; a name that is not present yields a missing value. -/
def cellLookup (c : String) : List (String × Option ℝ) → Option ℝ
  | [] => none
  | (k, v) :: rest => if c = k then v else cellLookup c rest

/-- First match of a join key among the (key, economic value) pairs of the
economic table.  A none key models the NaN produced at line 135 when the
economic table has no Country column; pandas merge keys match NaN only
with NaN, which the plain equality of Option String reproduces. -/
def lookupY (k : Option String) : List (Option String × Option ℝ) → Option (Option ℝ)
  | [] => none
  | (k2, v) :: rest => if k = k2 then some v else lookupY k rest

/-- Result of a successful join stage: the joined rows in left-table
order, plus the two normalized key columns used by the match report
(lines 153-160). -/
structure JoinResult where
  join : List JoinRow
  mbKeys : List String
  gKeys : List (Option String)

/-- Lines 120-154 of pages/04_GNP.py: the Country-column check on the MBTI
side, the Country_norm assignment on both sides (a missing economic
Country column yields a float64 column of NaN keys), the merge-key dtype
compatibility check of pd.merge (object string keys against a float64 NaN
key column raise ValueError whenever both key columns are non-empty; the
check precedes validate and is skipped when a key column is empty), the
validate m:1 duplicate check, and the construction of the joined rows with
the economic column renamed to Y_value.  The inner merge preserves the
order of the left (MBTI) rows. -/
def joinStage (mb : MbtiTable) (g : GnpTable) : Except PipeErr JoinResult :=
  if mb.hasCountryCol then
    let mbNorm := normalize_country_name mb.countries
    let gKey : List (Option String) :=
      if g.hasCountryCol then (normalize_country_name g.countries).map some
      else List.replicate g.y.length none
    if g.hasCountryCol = false ∧ mb.countries.length ≠ 0 ∧ g.y.length ≠ 0 then
      Except.error PipeErr.keyTypeMismatch
    else if gKey.Nodup then
      let gPairs := gKey.zip g.y
      let leftRows := mb.countries.zip (mbNorm.zip mb.ratios)
      Except.ok
        { join := leftRows.filterMap fun cr =>
            (lookupY (some cr.2.1) gPairs).map fun yv =>
              { country := cr.1
                countryNorm := cr.2.1
                cells := mb.mbtiCols.zip cr.2.2 ++ [("Y_value", yv)] }
          mbKeys := mbNorm
          gKeys := gKey }
    else Except.error PipeErr.mergeKeysNotUnique
  else Except.error PipeErr.countryMissing

/-- np.log1p on one cell: NaN (none) below -1 where log1p is undefined
over the reals; at -1 numpy produces -inf, which is not NaN and hence
still a present value for dropna, modelled by an ordinary real. -/
noncomputable def np_log1p (x : ℝ) : Option ℝ :=
  if x < -1 then none else some (Real.log (1 + x))

/-- Lines 162-165: the Y_trans column appended to the joined table as the
element-wise np.log1p of Y_value (NaN propagates). -/
noncomputable def applyLogTransform (rows : List JoinRow) : List JoinRow :=
  rows.map fun r =>
    { r with cells := r.cells ++ [("Y_trans", (cellLookup "Y_value" r.cells).bind np_log1p)] }

/-- Cell of a list at an index, with default 0 (only used below the
length). -/
def listIdx (x : List ℝ) (i : ℕ) : ℝ := x.getD i 0

/-- Arithmetic mean of a list of reals. -/
noncomputable def meanL (x : List ℝ) : ℝ :=
  (∑ i in Finset.range x.length, listIdx x i) / x.length

/-- Sum of squared deviations from the mean. -/
noncomputable def varSum (x : List ℝ) : ℝ :=
  ∑ i in Finset.range x.length, (listIdx x i - meanL x) ^ 2

/-- Sum of products of deviations from the means. -/
noncomputable def covSum (x y : List ℝ) : ℝ :=
  ∑ i in Finset.range x.length, (listIdx x i - meanL x) * (listIdx y i - meanL y)

/-- Modelled from the spec: the Pearson product-moment coefficient
computed by the statistics library (scipy.stats.pearsonr), which is not
part of this repository; the standard formula, sum of co-deviations over
the square root of the product of the squared-deviation sums. -/
noncomputable def pearsonRval (x y : List ℝ) : ℝ :=
  covSum x y / Real.sqrt (varSum x * varSum y)

/-- All entries equal to the first entry, the constant-input test of the
statistics library. -/
def isConstL (x : List ℝ) : Prop := ∀ a ∈ x, a = x.headD 0

/-- Modelled from the spec: the lower incomplete beta integral used by the
statistics library for its p-values. -/
noncomputable def incBeta (a b x : ℝ) : ℝ :=
  ∫ t in (0 : ℝ)..x, t ^ (a - 1) * (1 - t) ^ (b - 1)

/-- Regularized incomplete beta function. -/
noncomputable def regIncBeta (a b x : ℝ) : ℝ := incBeta a b x / incBeta a b 1

/-- Modelled from the spec: the two-sided p-value of scipy.stats.pearsonr,
twice the survival function at the absolute coefficient of the symmetric
beta distribution with shape n/2 - 1 rescaled to the interval from -1
to 1. -/
noncomputable def pearsonPval (n : ℕ) (r : ℝ) : ℝ :=
  2 * (1 - regIncBeta ((n : ℝ) / 2 - 1) ((n : ℝ) / 2 - 1) ((|r| + 1) / 2))

/-- Two-sided tail probability of the Student t distribution with df
degrees of freedom at t, in regularized-incomplete-beta form. -/
noncomputable def tTwoSidedPval (df t : ℝ) : ℝ :=
  regIncBeta (df / 2) (1 / 2) (df / (df + t ^ 2))

/-- The t statistic of the Spearman coefficient. -/
noncomputable def spearmanTstat (df rs : ℝ) : ℝ :=
  rs * Real.sqrt (df / ((1 + rs) * (1 - rs)))

open Classical in
/-- Modelled from the spec: the two-sided p-value of scipy.stats.spearmanr
via the t distribution with n - 2 degrees of freedom; at a coefficient of
plus or minus one the t statistic diverges and the p-value is 0. -/
noncomputable def spearmanPval (n : ℕ) (rs : ℝ) : ℝ :=
  if rs ^ 2 = 1 then 0
  else tTwoSidedPval ((n : ℝ) - 2) (spearmanTstat ((n : ℝ) - 2) rs)

open Classical in
/-- Number of entries strictly below v. -/
noncomputable def cntLt (x : List ℝ) (v : ℝ) : ℕ :=
  ((Finset.range x.length).filter fun i => listIdx x i < v).card

open Classical in
/-- Number of entries equal to v. -/
noncomputable def cntEq (x : List ℝ) (v : ℝ) : ℕ :=
  ((Finset.range x.length).filter fun i => listIdx x i = v).card

/-- Average rank of the value v within x (ties share the mean rank), as
scipy.stats.rankdata assigns with the average method, with ranks starting
at 1. -/
noncomputable def rankVal (x : List ℝ) (v : ℝ) : ℝ :=
  (cntLt x v : ℝ) + ((cntEq x v : ℝ) + 1) / 2

/-- The average-rank transform of a list. -/
noncomputable def avgRanks (x : List ℝ) : List ℝ := x.map (rankVal x)

open Classical in
/-- Modelled from the spec: scipy.stats.pearsonr on two equal-length
sequences, returning coefficient and two-sided p-value, and NaN for
constant input. -/
noncomputable def statsPearsonr (x y : List ℝ) : Option ℝ × Option ℝ :=
  if isConstL x ∨ isConstL y then (none, none)
  else (some (pearsonRval x y), some (pearsonPval x.length (pearsonRval x y)))

open Classical in
/-- Modelled from the spec: scipy.stats.spearmanr as the Pearson
coefficient of the average ranks, with the t-distribution p-value, and NaN
when the ranks of either input are constant. -/
noncomputable def statsSpearmanr (x y : List ℝ) : Option ℝ × Option ℝ :=
  if isConstL (avgRanks x) ∨ isConstL (avgRanks y) then (none, none)
  else
    (some (pearsonRval (avgRanks x) (avgRanks y)),
     some (spearmanPval x.length (pearsonRval (avgRanks x) (avgRanks y))))

/-- One row of the correlation result table of compute_correlations. -/
structure CorrRow where
  mbti : String
  pearson_r : Option ℝ
  pearson_p : Option ℝ
  spearman_r : Option ℝ
  spearman_p : Option ℝ
  n : ℕ

/-- Line 67: the two-column frame of one personality column and the
economic column with missing rows dropped, in row order. -/
def validPairs (rows : List JoinRow) (c ycol : String) : List (ℝ × ℝ) :=
  rows.filterMap fun r =>
    match cellLookup c r.cells, cellLookup ycol r.cells with
    | some a, some b => some (a, b)
    | _, _ => none

/-- Lines 65-83 for one personality column: below 3 valid pairs a NaN
result carrying the actual sample size, otherwise the Pearson and
Spearman results of the statistics routines. -/
noncomputable def corrRowFor (rows : List JoinRow) (c ycol : String) : CorrRow :=
  let sub := validPairs rows c ycol
  if sub.length < 3 then
    { mbti := c, pearson_r := none, pearson_p := none
      spearman_r := none, spearman_p := none, n := sub.length }
  else
    let pe := statsPearsonr (sub.map Prod.fst) (sub.map Prod.snd)
    let sp := statsSpearmanr (sub.map Prod.fst) (sub.map Prod.snd)
    { mbti := c, pearson_r := pe.1, pearson_p := pe.2
      spearman_r := sp.1, spearman_p := sp.2, n := sub.length }

/-- compute_correlations of pages/04_GNP.py lines 60-84: one result row
per requested personality column, in request order. -/
noncomputable def compute_correlations (rows : List JoinRow) (mbti_cols : List String)
    (y_col : String) : List CorrRow :=
  mbti_cols.map fun c => corrRowFor rows c y_col

/-- Descending placement order on sort keys, missing keys (NaN) last, as
sort_values with ascending false and the default na_position uses. -/
def keyLeDesc : Option ℝ → Option ℝ → Prop
  | some x, some y => y ≤ x
  | some _, none => True
  | none, some _ => False
  | none, none => True

open Classical in
/-- Insertion of an element into a list already in descending key order. -/
noncomputable def insertDesc {α : Type} (key : α → Option ℝ) (x : α) : List α → List α
  | [] => [x]
  | y :: ys => if keyLeDesc (key x) (key y) then x :: y :: ys else y :: insertDesc key x ys

/-- sort_values by one numeric column, descending, NaN last (line 179). -/
noncomputable def sort_values {α : Type} (key : α → Option ℝ) (l : List α) : List α :=
  l.foldr (insertDesc key) []

/-- Column selection by name on a correlation result row, as sort_values
does with its by argument. -/
def corrColumn (colName : String) (r : CorrRow) : Option ℝ :=
  if colName = "pearson_r" then r.pearson_r
  else if colName = "pearson_p" then r.pearson_p
  else if colName = "spearman_r" then r.spearman_r
  else if colName = "spearman_p" then r.spearman_p
  else none

/-- pandas Series.abs() keeps the name attribute of the Series unchanged;
this models the name of the sort-key Series built at line 178. -/
def absSeriesName (s : String) : String := s

/-- The column name handed to sort_values at line 179: the name attribute
of the sort-key Series, which is pearson_r in both sort modes because
Series.abs() preserves the name. -/
def sortKeyName (use_abs_sort : Bool) : String :=
  if use_abs_sort then absSeriesName "pearson_r" else "pearson_r"

/-- Lines 177-179: the displayed ordering of the correlation table. -/
noncomputable def corrDisplay (corr : List CorrRow) (use_abs_sort : Bool) : List CorrRow :=
  sort_values (corrColumn (sortKeyName use_abs_sort)) corr

/-- Concrete joined table exercising the log transform on a present
economic value below -1. -/
noncomputable def c1rows : List JoinRow :=
  [{ country := "p", countryNorm := "p", cells := [("A", some 1), ("Y_value", some 1)] },
   { country := "q", countryNorm := "q", cells := [("A", some 1), ("Y_value", some 2)] },
   { country := "s", countryNorm := "s", cells := [("A", some 1), ("Y_value", some (-2))] }]

theorem noWsRun_tail {a : Char} {t : List Char} (h : noWsRun (a :: t) = true) :
    noWsRun t = true := by
  cases t with
  | nil => rfl
  | cons b t2 =>
    have := h
    simp only [noWsRun, Bool.and_eq_true] at this
    exact this.2

theorem collapseWs_fix : ∀ l : List Char, wsBlank l = true → noWsRun l = true →
    collapseWs l = l
  | [], _, _ => rfl
  | [c], hb, _ => by
    have hb1 : (!isPyWs c || c == ' ') = true := by simpa [wsBlank] using hb
    cases hws : isPyWs c with
    | false => simp [collapseWs, hws]
    | true =>
      have hc : c = ' ' := by
        rw [hws] at hb1
        simpa using hb1
      simp [collapseWs, hws, hc]
  | c1 :: c2 :: rest, hb, hr => by
    have hb1 : ((!isPyWs c1 || c1 == ' ') && wsBlank (c2 :: rest)) = true := hb
    rw [Bool.and_eq_true] at hb1
    have hr2 : noWsRun (c2 :: rest) = true := noWsRun_tail hr
    have ih := collapseWs_fix (c2 :: rest) hb1.2 hr2
    have hpair : (isPyWs c1 && isPyWs c2) = false := by
      simp only [noWsRun, Bool.and_eq_true, Bool.not_eq_true'] at hr
      exact hr.1
    cases hws : isPyWs c1 with
    | false => simp [collapseWs, hws, ih]
    | true =>
      have h2 : isPyWs c2 = false := by
        rw [hws, Bool.true_and] at hpair
        exact hpair
      have hc : c1 = ' ' := by
        have hx := hb1.1
        rw [hws] at hx
        simpa using hx
      simp [collapseWs, hws, h2, ih, hc]

theorem collapseWs_head : ∀ (rest : List Char) (c : Char),
    ∃ h t, collapseWs (c :: rest) = h :: t ∧ isPyWs h = isPyWs c
  | [], c => by
    cases hws : isPyWs c with
    | false => exact ⟨c, [], by simp [collapseWs, hws], hws⟩
    | true => exact ⟨' ', [], by simp [collapseWs, hws], by decide⟩
  | c2 :: r2, c => by
    cases hws : isPyWs c with
    | false =>
      exact ⟨c, collapseWs (c2 :: r2), by simp [collapseWs, hws], hws⟩
    | true =>
      cases hws2 : isPyWs c2 with
      | true =>
        obtain ⟨h, t, heq, hwsh⟩ := collapseWs_head r2 c2
        exact ⟨h, t, by simp [collapseWs, hws, hws2, heq], by rw [hwsh, hws2]⟩
      | false =>
        exact ⟨' ', collapseWs (c2 :: r2), by simp [collapseWs, hws, hws2], by decide⟩

theorem collapseWs_wsBlank : ∀ l : List Char, wsBlank (collapseWs l) = true
  | [] => rfl
  | [c] => by
    cases hws : isPyWs c with
    | false =>
      have h : collapseWs [c] = [c] := by simp [collapseWs, hws]
      rw [h]
      simp [wsBlank, hws]
    | true =>
      have h : collapseWs [c] = [' '] := by simp [collapseWs, hws]
      rw [h]
      decide
  | c1 :: c2 :: rest => by
    have ih := collapseWs_wsBlank (c2 :: rest)
    cases h1 : isPyWs c1 with
    | true =>
      cases h2 : isPyWs c2 with
      | true =>
        have h : collapseWs (c1 :: c2 :: rest) = collapseWs (c2 :: rest) := by
          simp [collapseWs, h1, h2]
        rw [h]
        exact ih
      | false =>
        have h : collapseWs (c1 :: c2 :: rest) = ' ' :: collapseWs (c2 :: rest) := by
          simp [collapseWs, h1, h2]
        rw [h]
        simp only [wsBlank, List.all_cons, Bool.and_eq_true] at ih ⊢
        exact ⟨by decide, ih⟩
    | false =>
      have h : collapseWs (c1 :: c2 :: rest) = c1 :: collapseWs (c2 :: rest) := by
        simp [collapseWs, h1]
      rw [h]
      simp only [wsBlank, List.all_cons, Bool.and_eq_true] at ih ⊢
      exact ⟨by simp [h1], ih⟩

theorem collapseWs_noWsRun : ∀ l : List Char, noWsRun (collapseWs l) = true
  | [] => rfl
  | [c] => by
    cases hws : isPyWs c with
    | false =>
      have h : collapseWs [c] = [c] := by simp [collapseWs, hws]
      rw [h]
      rfl
    | true =>
      have h : collapseWs [c] = [' '] := by simp [collapseWs, hws]
      rw [h]
      rfl
  | c1 :: c2 :: rest => by
    have ih := collapseWs_noWsRun (c2 :: rest)
    obtain ⟨hd, tl, heq, hwsh⟩ := collapseWs_head rest c2
    cases h1 : isPyWs c1 with
    | true =>
      cases h2 : isPyWs c2 with
      | true =>
        have h : collapseWs (c1 :: c2 :: rest) = collapseWs (c2 :: rest) := by
          simp [collapseWs, h1, h2]
        rw [h]
        exact ih
      | false =>
        have h : collapseWs (c1 :: c2 :: rest) = ' ' :: collapseWs (c2 :: rest) := by
          simp [collapseWs, h1, h2]
        rw [h, heq]
        have hrun : noWsRun (hd :: tl) = true := by
          rw [← heq]
          exact ih
        simp only [noWsRun, Bool.and_eq_true, Bool.not_eq_true']
        exact ⟨by rw [hwsh, h2, Bool.and_false], hrun⟩
    | false =>
      have h : collapseWs (c1 :: c2 :: rest) = c1 :: collapseWs (c2 :: rest) := by
        simp [collapseWs, h1]
      rw [h, heq]
      have hrun : noWsRun (hd :: tl) = true := by
        rw [← heq]
        exact ih
      simp only [noWsRun, Bool.and_eq_true, Bool.not_eq_true']
      exact ⟨by rw [h1, Bool.false_and], hrun⟩

theorem collapseWs_headOk {l : List Char} (h : headOkWs l = true) :
    headOkWs (collapseWs l) = true := by
  cases l with
  | nil => rfl
  | cons c rest =>
    obtain ⟨hd, tl, heq, hwsh⟩ := collapseWs_head rest c
    rw [heq]
    have hc : isPyWs c = false := by simpa [headOkWs] using h
    simp [headOkWs, hwsh, hc]

theorem collapseWs_endOk : ∀ l : List Char, endOkWs l = true →
    endOkWs (collapseWs l) = true
  | [], _ => rfl
  | [c], h => by
    have hws : isPyWs c = false := by
      simpa [endOkWs, Bool.not_eq_true'] using h
    have he : collapseWs [c] = [c] := by simp [collapseWs, hws]
    rw [he]
    exact h
  | c1 :: c2 :: rest, h => by
    have h2 : endOkWs (c2 :: rest) = true := by
      simp only [endOkWs, List.getLast?_cons_cons] at h
      simp only [endOkWs]
      exact h
    have ih := collapseWs_endOk (c2 :: rest) h2
    obtain ⟨hd, tl, heq, _⟩ := collapseWs_head rest c2
    cases h1 : isPyWs c1 with
    | true =>
      cases hq : isPyWs c2 with
      | true =>
        have he : collapseWs (c1 :: c2 :: rest) = collapseWs (c2 :: rest) := by
          simp [collapseWs, h1, hq]
        rw [he]
        exact ih
      | false =>
        have he : collapseWs (c1 :: c2 :: rest) = ' ' :: collapseWs (c2 :: rest) := by
          simp [collapseWs, h1, hq]
        rw [he, heq]
        rw [heq] at ih
        simp only [endOkWs, List.getLast?_cons_cons] at ih ⊢
        exact ih
    | false =>
      have he : collapseWs (c1 :: c2 :: rest) = c1 :: collapseWs (c2 :: rest) := by
        simp [collapseWs, h1]
      rw [he, heq]
      rw [heq] at ih
      simp only [endOkWs, List.getLast?_cons_cons] at ih ⊢
      exact ih

theorem headOkWs_head? (m : List Char) :
    headOkWs m = (match m.head? with | none => true | some c => !isPyWs c) := by
  cases m <;> rfl

theorem endOkWs_eq_reverse (l : List Char) : endOkWs l = headOkWs l.reverse := by
  rw [headOkWs_head?, List.head?_reverse]
  rfl

theorem dropWhile_headOk (l : List Char) : headOkWs (l.dropWhile isPyWs) = true := by
  induction l with
  | nil => rfl
  | cons c t ih =>
    cases hws : isPyWs c with
    | true => simpa [List.dropWhile_cons, hws] using ih
    | false => simp [List.dropWhile_cons, hws, headOkWs]

theorem dropWhile_self {m : List Char} (h : headOkWs m = true) :
    m.dropWhile isPyWs = m := by
  cases m with
  | nil => rfl
  | cons c t =>
    have hc : isPyWs c = false := by simpa [headOkWs] using h
    simp [List.dropWhile_cons, hc]

theorem dropWhile_concat {xs : List Char} {c : Char} (hc : isPyWs c = false) :
    (xs ++ [c]).dropWhile isPyWs = xs.dropWhile isPyWs ++ [c] := by
  induction xs with
  | nil => simp [List.dropWhile_cons, hc]
  | cons a t ih =>
    cases ha : isPyWs a with
    | true => simp [List.dropWhile_cons, ha, ih]
    | false => simp [List.dropWhile_cons, ha]

theorem pyStrip_headOk (l : List Char) : headOkWs (pyStrip l) = true := by
  have h1 := dropWhile_headOk l
  revert h1
  unfold pyStrip
  generalize l.dropWhile isPyWs = l1
  intro h1
  cases l1 with
  | nil => rfl
  | cons c t =>
    have hc : isPyWs c = false := by simpa [headOkWs] using h1
    rw [List.reverse_cons, dropWhile_concat hc, List.reverse_append]
    simp [headOkWs, hc]

theorem pyStrip_endOk (l : List Char) : endOkWs (pyStrip l) = true := by
  unfold pyStrip
  rw [endOkWs_eq_reverse, List.reverse_reverse]
  exact dropWhile_headOk _

theorem pyStrip_fix {l : List Char} (h1 : headOkWs l = true) (h2 : endOkWs l = true) :
    pyStrip l = l := by
  unfold pyStrip
  rw [dropWhile_self h1]
  rw [endOkWs_eq_reverse] at h2
  rw [dropWhile_self h2, List.reverse_reverse]

theorem normWs_idem (l : List Char) : normWsChars (normWsChars l) = normWsChars l := by
  unfold normWsChars
  rw [pyStrip_fix (collapseWs_headOk (pyStrip_headOk l)) (collapseWs_endOk _ (pyStrip_endOk l))]
  exact collapseWs_fix _ (collapseWs_wsBlank _) (collapseWs_noWsRun _)

theorem replLookup_mem {s v : String} :
    ∀ l : List (String × String), replLookup s l = some v → (s, v) ∈ l := by
  intro l
  induction l with
  | nil => intro h; simp [replLookup] at h
  | cons p rest ih =>
    intro h
    obtain ⟨k, w⟩ := p
    by_cases hk : s = k
    · simp only [replLookup, if_pos hk] at h
      injection h with h2
      subst hk
      rw [← h2]
      exact List.mem_cons_self _ _
    · simp only [replLookup, if_neg hk] at h
      exact List.mem_cons_of_mem _ (ih h)

theorem countryRepl_vals_fixed : ∀ p ∈ countryRepl, normalizeCountry p.2 = p.2 := by
  decide

theorem normalizeCountry_idem (s : String) :
    normalizeCountry (normalizeCountry s) = normalizeCountry s := by
  cases hl : replLookup (collapseStr (stripStr s)) countryRepl with
  | some v =>
    have h1 : normalizeCountry s = v := by
      unfold normalizeCountry aliasSub
      rw [hl]
      rfl
    rw [h1]
    exact countryRepl_vals_fixed _ (replLookup_mem _ hl)
  | none =>
    have h1 : normalizeCountry s = collapseStr (stripStr s) := by
      unfold normalizeCountry aliasSub
      rw [hl]
      rfl
    rw [h1]
    have h2 : collapseStr (stripStr (collapseStr (stripStr s))) = collapseStr (stripStr s) := by
      show String.mk (normWsChars (normWsChars s.data)) = String.mk (normWsChars s.data)
      rw [normWs_idem]
    unfold normalizeCountry aliasSub
    rw [h2, hl]
    rfl

theorem normalize_series_map (l : List String) :
    normalize_country_name l = l.map normalizeCountry := by
  unfold normalize_country_name
  rw [List.map_map, List.map_map]
  rfl

/-- C6: name normalization is idempotent, per cell and per column: applying
normalize_country_name to an already-normalized value gives the same value. -/
theorem c6_normalize_idempotent :
    (∀ s : String, normalizeCountry (normalizeCountry s) = normalizeCountry s) ∧
    (∀ l : List String,
      normalize_country_name (normalize_country_name l) = normalize_country_name l) := by
  refine ⟨normalizeCountry_idem, fun l => ?_⟩
  rw [normalize_series_map, normalize_series_map, List.map_map]
  have h : normalizeCountry ∘ normalizeCountry = normalizeCountry :=
    funext normalizeCountry_idem
  rw [h]

/-- C8: the normalizer maps a sequence of raw names to a sequence of the
same length and order, each element being strip, whitespace collapse, then
alias substitution; values absent from the alias table pass through
unchanged after the whitespace steps, and South Korea maps to the
canonical Korea, Republic of. -/
theorem c8_normalizer_contract :
    (∀ l : List String, (normalize_country_name l).length = l.length) ∧
    (∀ (l : List String) (i : ℕ),
      (normalize_country_name l)[i]? =
        (l[i]?).map fun s => aliasSub (collapseStr (stripStr s))) ∧
    (∀ s : String, replLookup (collapseStr (stripStr s)) countryRepl = none →
      aliasSub (collapseStr (stripStr s)) = collapseStr (stripStr s)) ∧
    normalize_country_name ["South Korea"] = ["Korea, Republic of"] := by
  refine ⟨?_, ?_, ?_, ?_⟩
  · intro l
    simp [normalize_country_name]
  · intro l i
    rw [normalize_series_map, List.getElem?_map]
    rfl
  · intro s h
    unfold aliasSub
    rw [h]
    rfl
  · decide

theorem c8_normalizer_contract_witness :
    (normalize_country_name ["  South   Korea "]).length = 1 ∧
    aliasSub (collapseStr (stripStr "Atlantis")) = collapseStr (stripStr "Atlantis") :=
  ⟨c8_normalizer_contract.1 _, c8_normalizer_contract.2.2.1 "Atlantis" (by decide)⟩

theorem lookupY_all_none {s : String} :
    ∀ ps : List (Option String × Option ℝ), (∀ p ∈ ps, p.1 = none) →
      lookupY (some s) ps = none := by
  intro ps
  induction ps with
  | nil => intro _; rfl
  | cons p rest ih =>
    intro h
    obtain ⟨k, v⟩ := p
    have hk : k = none := h (k, v) (List.mem_cons_self _ _)
    subst hk
    simp only [lookupY]
    rw [if_neg (by simp)]
    exact ih fun q hq => h q (List.mem_cons_of_mem _ hq)

/-- C3: duplicate normalized names on the economic side make the merge
with validate m:1 fail fast with the merge-key error, so no joined rows
are produced and no duplicate is silently collapsed or picked. -/
theorem c3_duplicate_key_fails : ∀ (mb : MbtiTable) (g : GnpTable),
    mb.hasCountryCol = true → g.hasCountryCol = true →
    ¬ (normalize_country_name g.countries).Nodup →
    joinStage mb g = Except.error PipeErr.mergeKeysNotUnique := by
  intro mb g h1 h2 hdup
  have hkey : ¬ ((normalize_country_name g.countries).map some).Nodup := fun hn =>
    hdup (hn.of_map some)
  have hdt : ¬ (g.hasCountryCol = false ∧ mb.countries.length ≠ 0 ∧ g.y.length ≠ 0) := by
    intro hc
    rw [h2] at hc
    simp at hc
  simp only [joinStage]
  rw [if_pos h1, if_neg hdt, if_pos h2, if_neg hkey]

theorem c3_duplicate_key_fails_witness :
    joinStage ⟨true, ["X"], ["A"], [[some 1]]⟩
        ⟨true, ["Vietnam", "Viet Nam"], [some 1, some 2]⟩ =
      Except.error PipeErr.mergeKeysNotUnique :=
  c3_duplicate_key_fails _ _ rfl rfl (by decide)

/-- C1: evaluation of the log transform at a failing input.  In the
concrete joined table c1rows every economic value is present, but after
the transform the row with Y_value -2 becomes missing (np.log1p of a
value below -1 is NaN), so the engine sees 2 valid pairs instead of 3:
the transform silently changed which rows count as missing instead of
flagging the domain error. -/
theorem c1_log1p_changes_missingness :
    (c1rows.map fun r => (cellLookup "Y_value" r.cells).isSome) = [true, true, true] ∧
    ((applyLogTransform c1rows).map fun r => (cellLookup "Y_trans" r.cells).isSome) =
      [true, true, false] ∧
    (validPairs c1rows "A" "Y_value").length = 3 ∧
    (validPairs (applyLogTransform c1rows) "A" "Y_trans").length = 2 := by
  have h1 : np_log1p 1 = some (Real.log (1 + 1)) := by
    unfold np_log1p
    rw [if_neg (by norm_num)]
  have h2 : np_log1p 2 = some (Real.log (1 + 2)) := by
    unfold np_log1p
    rw [if_neg (by norm_num)]
  have h3 : np_log1p (-2) = none := by
    unfold np_log1p
    rw [if_pos (by norm_num)]
  refine ⟨rfl, ?_, rfl, ?_⟩
  · simp [applyLogTransform, c1rows, cellLookup, h1, h2, h3]
  · simp [applyLogTransform, c1rows, cellLookup, validPairs, h1, h2, h3]

/-- C10: the Correlation Engine returns exactly one result row per
requested column, in request order, each recording the requested column
name and the sample size actually used, and on an empty joined table it
returns a row of undefined results with sample size 0 for every column. -/
theorem c10_engine_shape : ∀ (rows : List JoinRow) (cols : List String) (ycol : String),
    (compute_correlations rows cols ycol).length = cols.length ∧
    (∀ i : ℕ, (compute_correlations rows cols ycol)[i]? =
      (cols[i]?).map fun c => corrRowFor rows c ycol) ∧
    (∀ c : String, (corrRowFor rows c ycol).mbti = c ∧
      (corrRowFor rows c ycol).n = (validPairs rows c ycol).length) ∧
    (rows = [] → compute_correlations rows cols ycol =
      cols.map fun c => ⟨c, none, none, none, none, 0⟩) := by
  intro rows cols ycol
  refine ⟨by simp [compute_correlations], ?_, ?_, ?_⟩
  · intro i
    rw [compute_correlations, List.getElem?_map]
  · intro c
    by_cases hlt : (validPairs rows c ycol).length < 3
    · simp only [corrRowFor]
      rw [if_pos hlt]
      exact ⟨rfl, rfl⟩
    · simp only [corrRowFor]
      rw [if_neg hlt]
      exact ⟨rfl, rfl⟩
  · intro h
    subst h
    unfold compute_correlations
    have hfun : (fun c => corrRowFor [] c ycol) =
        fun c => (⟨c, none, none, none, none, 0⟩ : CorrRow) :=
      funext fun c => rfl
    rw [hfun]

theorem c10_engine_shape_witness :
    (compute_correlations [] ["INTJ", "ENTP"] "Y_value").length = 2 ∧
    compute_correlations [] ["INTJ", "ENTP"] "Y_value" =
      ["INTJ", "ENTP"].map fun c => ⟨c, none, none, none, none, 0⟩ :=
  ⟨(c10_engine_shape [] ["INTJ", "ENTP"] "Y_value").1,
   (c10_engine_shape [] ["INTJ", "ENTP"] "Y_value").2.2.2 rfl⟩

/-- C4: for a requested column whose valid pairs after dropping missing
values number fewer than 3, the engine returns a row with all four
statistics undefined and the actual sample size, without calling the
statistics routines (so nothing can raise); a column with at least 3
valid pairs in the same pass gets the ordinary statistics results. -/
theorem c4_small_sample_nan : ∀ (rows : List JoinRow) (cols : List String) (ycol : String)
    (i : ℕ) (c : String), cols[i]? = some c →
    ((validPairs rows c ycol).length < 3 →
      (compute_correlations rows cols ycol)[i]? =
        some ⟨c, none, none, none, none, (validPairs rows c ycol).length⟩) ∧
    (3 ≤ (validPairs rows c ycol).length →
      (compute_correlations rows cols ycol)[i]? =
        some ⟨c,
          (statsPearsonr ((validPairs rows c ycol).map Prod.fst)
            ((validPairs rows c ycol).map Prod.snd)).1,
          (statsPearsonr ((validPairs rows c ycol).map Prod.fst)
            ((validPairs rows c ycol).map Prod.snd)).2,
          (statsSpearmanr ((validPairs rows c ycol).map Prod.fst)
            ((validPairs rows c ycol).map Prod.snd)).1,
          (statsSpearmanr ((validPairs rows c ycol).map Prod.fst)
            ((validPairs rows c ycol).map Prod.snd)).2,
          (validPairs rows c ycol).length⟩) := by
  intro rows cols ycol i c hc
  have hmap : (compute_correlations rows cols ycol)[i]? = some (corrRowFor rows c ycol) := by
    rw [compute_correlations, List.getElem?_map, hc, Option.map_some']
  constructor
  · intro hlt
    rw [hmap]
    simp only [corrRowFor]
    rw [if_pos hlt]
  · intro hge
    rw [hmap]
    simp only [corrRowFor]
    rw [if_neg (by omega)]

theorem c4_small_sample_nan_witness :
    (compute_correlations
        [⟨"a", "a", [("A", some 1), ("B", some 1), ("Y_value", some 1)]⟩,
         ⟨"b", "b", [("A", none), ("B", some 2), ("Y_value", some 2)]⟩,
         ⟨"c", "c", [("A", some 3), ("B", some 3), ("Y_value", some 3)]⟩]
        ["A", "B"] "Y_value")[0]? =
      some ⟨"A", none, none, none, none, 2⟩ ∧
    (compute_correlations
        [⟨"a", "a", [("A", some 1), ("B", some 1), ("Y_value", some 1)]⟩,
         ⟨"b", "b", [("A", none), ("B", some 2), ("Y_value", some 2)]⟩,
         ⟨"c", "c", [("A", some 3), ("B", some 3), ("Y_value", some 3)]⟩]
        ["A", "B"] "Y_value")[1]? =
      some ⟨"B", (statsPearsonr [1, 2, 3] [1, 2, 3]).1, (statsPearsonr [1, 2, 3] [1, 2, 3]).2,
        (statsSpearmanr [1, 2, 3] [1, 2, 3]).1, (statsSpearmanr [1, 2, 3] [1, 2, 3]).2, 3⟩ := by
  constructor
  · exact (c4_small_sample_nan
      [⟨"a", "a", [("A", some 1), ("B", some 1), ("Y_value", some 1)]⟩,
       ⟨"b", "b", [("A", none), ("B", some 2), ("Y_value", some 2)]⟩,
       ⟨"c", "c", [("A", some 3), ("B", some 3), ("Y_value", some 3)]⟩]
      ["A", "B"] "Y_value" 0 "A" rfl).1 (by decide)
  · have h := (c4_small_sample_nan
      [⟨"a", "a", [("A", some 1), ("B", some 1), ("Y_value", some 1)]⟩,
       ⟨"b", "b", [("A", none), ("B", some 2), ("Y_value", some 2)]⟩,
       ⟨"c", "c", [("A", some 3), ("B", some 3), ("Y_value", some 3)]⟩]
      ["A", "B"] "Y_value" 1 "B" rfl).2 (by decide)
    simpa [validPairs, cellLookup] using h

/-- C5: evaluation of the display sort.  Series.abs() keeps the Series
name pearson_r, so the column handed to sort_values is the signed
pearson_r column in both sort modes: the sort mode has no effect at all,
and on a table with coefficients -1 and 1/2 the magnitude mode displays
the 1/2 row first even though the -1 row has strictly larger magnitude. -/
theorem c5_sort_ignores_abs_mode :
    (∀ (corr : List CorrRow) (b : Bool),
      corrDisplay corr b = sort_values (corrColumn "pearson_r") corr) ∧
    corrDisplay
      [⟨"A", some (-1), none, none, none, 3⟩, ⟨"B", some (1 / 2), none, none, none, 3⟩]
      true =
      [⟨"B", some (1 / 2), none, none, none, 3⟩, ⟨"A", some (-1), none, none, none, 3⟩] ∧
    |(-1 : ℝ)| > |(1 / 2 : ℝ)| := by
  refine ⟨?_, ?_, by
    rw [abs_of_nonpos (by norm_num : (-1 : ℝ) ≤ 0),
      abs_of_nonneg (by norm_num : (0 : ℝ) ≤ 1 / 2)]
    norm_num⟩
  · intro corr b
    cases b <;> rfl
  · show sort_values (corrColumn "pearson_r") _ = _
    simp only [sort_values, List.foldr, insertDesc, corrColumn]
    norm_num [keyLeDesc]

theorem betaIntegrandNonneg {a b : ℝ} {t : ℝ} (h0 : 0 ≤ t) (h1 : t ≤ 1) :
    0 ≤ t ^ (a - 1) * (1 - t) ^ (b - 1) :=
  mul_nonneg (Real.rpow_nonneg h0 _) (Real.rpow_nonneg (by linarith) _)

theorem betaIntegrable {a b : ℝ} (ha : 0 < a) (hb : 0 < b) :
    IntervalIntegrable (fun t => t ^ (a - 1) * (1 - t) ^ (b - 1))
      MeasureTheory.volume 0 1 := by
  have i1 : IntervalIntegrable (fun t : ℝ => t ^ (a - 1)) MeasureTheory.volume 0 (1 / 2) :=
    intervalIntegral.intervalIntegrable_rpow' (by linarith)
  have g1 : ContinuousOn (fun t : ℝ => (1 - t) ^ (b - 1)) (Set.uIcc (0 : ℝ) (1 / 2)) := by
    apply ContinuousOn.rpow_const
    · exact (continuous_const.sub continuous_id).continuousOn
    · intro t ht
      rw [Set.uIcc_of_le (by norm_num : (0 : ℝ) ≤ 1 / 2)] at ht
      left
      have := ht.2
      intro hz
      have : (1 : ℝ) - t > 0 := by linarith
      linarith
  have part1 := i1.mul_continuousOn g1
  have i2 : IntervalIntegrable (fun u : ℝ => u ^ (b - 1)) MeasureTheory.volume 0 (1 / 2) :=
    intervalIntegral.intervalIntegrable_rpow' (by linarith)
  have i2' := (i2.comp_sub_left 1).symm
  have hnum : (1 : ℝ) - 0 = 1 := by norm_num
  have hnum2 : (1 : ℝ) - 1 / 2 = 1 / 2 := by norm_num
  rw [hnum, hnum2] at i2'
  have g2 : ContinuousOn (fun t : ℝ => t ^ (a - 1)) (Set.uIcc (1 / 2 : ℝ) 1) := by
    apply ContinuousOn.rpow_const
    · exact continuous_id.continuousOn
    · intro t ht
      rw [Set.uIcc_of_le (by norm_num : (1 / 2 : ℝ) ≤ 1)] at ht
      left
      have := ht.1
      intro hz
      rw [hz] at this
      linarith
  have part2 := i2'.mul_continuousOn g2
  have heq : (fun x : ℝ => (1 - x) ^ (b - 1) * x ^ (a - 1)) =
      fun t : ℝ => t ^ (a - 1) * (1 - t) ^ (b - 1) :=
    funext fun x => mul_comm _ _
  rw [heq] at part2
  exact part1.trans part2

theorem betaIntegrableOn {a b c d : ℝ} (ha : 0 < a) (hb : 0 < b)
    (hc : 0 ≤ c) (hd : d ≤ 1) (hcd : c ≤ d) :
    IntervalIntegrable (fun t => t ^ (a - 1) * (1 - t) ^ (b - 1))
      MeasureTheory.volume c d := by
  apply (betaIntegrable ha hb).mono_set
  rw [Set.uIcc_of_le hcd, Set.uIcc_of_le (by norm_num : (0 : ℝ) ≤ 1)]
  exact Set.Icc_subset_Icc hc hd

theorem incBeta_nonneg {a b x : ℝ} (hx0 : 0 ≤ x) (hx1 : x ≤ 1) :
    0 ≤ incBeta a b x := by
  unfold incBeta
  apply intervalIntegral.integral_nonneg hx0
  intro u hu
  exact betaIntegrandNonneg hu.1 (le_trans hu.2 hx1)

theorem incBeta_mono {a b c d : ℝ} (ha : 0 < a) (hb : 0 < b)
    (h0 : 0 ≤ c) (hcd : c ≤ d) (hd : d ≤ 1) : incBeta a b c ≤ incBeta a b d := by
  have h1 : IntervalIntegrable (fun t => t ^ (a - 1) * (1 - t) ^ (b - 1))
      MeasureTheory.volume 0 c :=
    betaIntegrableOn ha hb le_rfl (le_trans hcd hd) h0
  have h2 : IntervalIntegrable (fun t => t ^ (a - 1) * (1 - t) ^ (b - 1))
      MeasureTheory.volume c d :=
    betaIntegrableOn ha hb h0 hd hcd
  have hadd := intervalIntegral.integral_add_adjacent_intervals h1 h2
  have hnn : 0 ≤ ∫ t in c..d, t ^ (a - 1) * (1 - t) ^ (b - 1) :=
    intervalIntegral.integral_nonneg hcd fun u hu =>
      betaIntegrandNonneg (le_trans h0 hu.1) (le_trans hu.2 hd)
  unfold incBeta
  linarith [hadd, hnn]

theorem incBeta_one_pos {a b : ℝ} (ha : 0 < a) (hb : 0 < b) : 0 < incBeta a b 1 := by
  unfold incBeta
  apply intervalIntegral.intervalIntegral_pos_of_pos_on (betaIntegrable ha hb)
  · intro t ht
    exact mul_pos (Real.rpow_pos_of_pos ht.1 _)
      (Real.rpow_pos_of_pos (by linarith [ht.2]) _)
  · norm_num

theorem incBeta_one_eq_two_mul_half {a : ℝ} (ha : 0 < a) :
    incBeta a a 1 = 2 * incBeta a a (1 / 2) := by
  have h1 : IntervalIntegrable (fun t => t ^ (a - 1) * (1 - t) ^ (a - 1))
      MeasureTheory.volume 0 (1 / 2) :=
    betaIntegrableOn ha ha le_rfl (by norm_num) (by norm_num)
  have h2 : IntervalIntegrable (fun t => t ^ (a - 1) * (1 - t) ^ (a - 1))
      MeasureTheory.volume (1 / 2) 1 :=
    betaIntegrableOn ha ha (by norm_num) le_rfl (by norm_num)
  have hadd := intervalIntegral.integral_add_adjacent_intervals h1 h2
  have hsym : (∫ t in (1 / 2 : ℝ)..1, t ^ (a - 1) * (1 - t) ^ (a - 1)) =
      ∫ t in (0 : ℝ)..(1 / 2), t ^ (a - 1) * (1 - t) ^ (a - 1) := by
    have e1 := intervalIntegral.integral_comp_sub_left
      (fun t : ℝ => t ^ (a - 1) * (1 - t) ^ (a - 1)) 1 (a := 0) (b := 1 / 2)
    have e2 : (fun x : ℝ => (1 - x) ^ (a - 1) * (1 - (1 - x)) ^ (a - 1)) =
        fun x : ℝ => x ^ (a - 1) * (1 - x) ^ (a - 1) := by
      funext x
      rw [sub_sub_cancel, mul_comm]
    have e3 : (1 : ℝ) - 1 / 2 = 1 / 2 := by norm_num
    have e4 : (1 : ℝ) - 0 = 1 := by norm_num
    rw [e3, e4] at e1
    rw [← e1]
    exact congrArg (fun g => ∫ x in (0 : ℝ)..(1 / 2), g x) e2.symm ▸ rfl
  unfold incBeta
  linarith [hadd, hsym]

theorem regIncBeta_nonneg {a b x : ℝ} (ha : 0 < a) (hb : 0 < b)
    (hx0 : 0 ≤ x) (hx1 : x ≤ 1) : 0 ≤ regIncBeta a b x :=
  div_nonneg (incBeta_nonneg hx0 hx1) (incBeta_one_pos ha hb).le

theorem regIncBeta_le_one {a b x : ℝ} (ha : 0 < a) (hb : 0 < b)
    (hx0 : 0 ≤ x) (hx1 : x ≤ 1) : regIncBeta a b x ≤ 1 := by
  unfold regIncBeta
  rw [div_le_one (incBeta_one_pos ha hb)]
  exact incBeta_mono ha hb hx0 hx1 le_rfl

theorem regIncBeta_half_le {a x : ℝ} (ha : 0 < a) (hx0 : 1 / 2 ≤ x) (hx1 : x ≤ 1) :
    1 / 2 ≤ regIncBeta a a x := by
  unfold regIncBeta
  rw [le_div_iff₀ (incBeta_one_pos ha ha)]
  have hmono : incBeta a a (1 / 2) ≤ incBeta a a x :=
    incBeta_mono ha ha (by norm_num) hx0 hx1
  have hhalf := incBeta_one_eq_two_mul_half ha
  linarith

theorem pearsonPval_bounds {n : ℕ} {r : ℝ} (hn : 3 ≤ n) (hr : |r| ≤ 1) :
    0 ≤ pearsonPval n r ∧ pearsonPval n r ≤ 1 := by
  have hn3 : (3 : ℝ) ≤ (n : ℝ) := by exact_mod_cast hn
  have ha : 0 < (n : ℝ) / 2 - 1 := by linarith
  have habs := abs_nonneg r
  have hx0 : 1 / 2 ≤ (|r| + 1) / 2 := by linarith
  have hx1 : (|r| + 1) / 2 ≤ 1 := by linarith
  have h1 := regIncBeta_le_one ha ha (by linarith) hx1
  have h2 := regIncBeta_half_le ha hx0 hx1
  unfold pearsonPval
  constructor <;> linarith

theorem tTwoSidedPval_bounds {df t : ℝ} (hdf : 0 < df) :
    0 ≤ tTwoSidedPval df t ∧ tTwoSidedPval df t ≤ 1 := by
  have hden : 0 < df + t ^ 2 := by positivity
  have hx0 : 0 ≤ df / (df + t ^ 2) := by positivity
  have hx1 : df / (df + t ^ 2) ≤ 1 := by
    rw [div_le_one hden]
    nlinarith [sq_nonneg t]
  have ha : 0 < df / 2 := by linarith
  have hb : 0 < (1 : ℝ) / 2 := by norm_num
  exact ⟨regIncBeta_nonneg ha hb hx0 hx1, regIncBeta_le_one ha hb hx0 hx1⟩

theorem spearmanPval_bounds {n : ℕ} (rs : ℝ) (hn : 3 ≤ n) :
    0 ≤ spearmanPval n rs ∧ spearmanPval n rs ≤ 1 := by
  unfold spearmanPval
  by_cases h : rs ^ 2 = 1
  · rw [if_pos h]
    norm_num
  · rw [if_neg h]
    have hdf : 0 < (n : ℝ) - 2 := by
      have : (3 : ℝ) ≤ (n : ℝ) := by exact_mod_cast hn
      linarith
    exact tTwoSidedPval_bounds hdf

theorem varSum_nonneg (x : List ℝ) : 0 ≤ varSum x :=
  Finset.sum_nonneg fun _ _ => sq_nonneg _

theorem covSq_le_var_mul {x y : List ℝ} (h : y.length = x.length) :
    (covSum x y) ^ 2 ≤ varSum x * varSum y := by
  unfold covSum varSum
  rw [h]
  exact Finset.sum_mul_sq_le_sq_mul_sq _ _ _

theorem listIdx_of_get {x : List ℝ} {i : ℕ} (h : i < x.length) :
    listIdx x i = x.get ⟨i, h⟩ := by
  unfold listIdx
  exact List.getD_eq_get x 0 h

theorem isConst_of_varSum_eq_zero {x : List ℝ} (hx : x ≠ []) (h : varSum x = 0) :
    isConstL x := by
  have hall := (Finset.sum_eq_zero_iff_of_nonneg
    (fun i _ => sq_nonneg (listIdx x i - meanL x))).mp h
  have hmean : ∀ a ∈ x, a = meanL x := by
    intro a ha
    obtain ⟨⟨i, hi⟩, hgi⟩ := List.mem_iff_get.mp ha
    have h1 := hall i (Finset.mem_range.mpr hi)
    have h2 : listIdx x i - meanL x = 0 := by
      exact pow_eq_zero_iff (by norm_num) |>.mp h1
    have h3 : listIdx x i = a := by
      rw [listIdx_of_get hi]
      exact hgi
    linarith [h2, h3.symm.le, h3.le]
  have hhead : x.headD 0 ∈ x := by
    cases x with
    | nil => exact absurd rfl hx
    | cons c t => exact List.mem_cons_self _ _
  intro a ha
  rw [hmean a ha, hmean _ hhead]

theorem nonempty_of_not_const {x : List ℝ} (h : ¬ isConstL x) : x ≠ [] := by
  intro he
  subst he
  exact h fun a ha => absurd ha (List.not_mem_nil a)

theorem varSum_pos {x : List ℝ} (h : ¬ isConstL x) : 0 < varSum x :=
  lt_of_le_of_ne (varSum_nonneg x) fun heq =>
    h (isConst_of_varSum_eq_zero (nonempty_of_not_const h) heq.symm)

theorem pearsonRval_abs_le {x y : List ℝ} (hlen : y.length = x.length)
    (hx : ¬ isConstL x) (hy : ¬ isConstL y) : |pearsonRval x y| ≤ 1 := by
  have hvx := varSum_pos hx
  have hvy := varSum_pos hy
  have hprod : 0 < varSum x * varSum y := mul_pos hvx hvy
  have hsq := covSq_le_var_mul hlen
  unfold pearsonRval
  rw [abs_div, abs_of_nonneg (Real.sqrt_nonneg _)]
  rw [div_le_one (Real.sqrt_pos.mpr hprod)]
  have h1 : |covSum x y| = Real.sqrt ((covSum x y) ^ 2) := (Real.sqrt_sq_eq_abs _).symm
  rw [h1]
  exact Real.sqrt_le_sqrt hsq

theorem cntEq_pos {x : List ℝ} {v : ℝ} (hv : v ∈ x) : 1 ≤ cntEq x v := by
  obtain ⟨⟨i, hi⟩, hgi⟩ := List.mem_iff_get.mp hv
  unfold cntEq
  rw [Nat.succ_le_iff, Finset.card_pos]
  refine ⟨i, ?_⟩
  rw [Finset.mem_filter, Finset.mem_range]
  exact ⟨hi, by rw [listIdx_of_get hi]; exact hgi⟩

theorem rankVal_lt {x : List ℝ} {u v : ℝ} (hu : u ∈ x) (hv : v ∈ x) (huv : u < v) :
    rankVal x u < rankVal x v := by
  have h1 : cntLt x u + cntEq x u ≤ cntLt x v := by
    unfold cntLt cntEq
    classical
    have hdisj : Disjoint ((Finset.range x.length).filter fun i => listIdx x i < u)
        ((Finset.range x.length).filter fun i => listIdx x i = u) := by
      rw [Finset.disjoint_left]
      intro i hi1 hi2
      rw [Finset.mem_filter] at hi1 hi2
      rw [hi2.2] at hi1
      exact lt_irrefl u hi1.2
    calc ((Finset.range x.length).filter fun i => listIdx x i < u).card +
          ((Finset.range x.length).filter fun i => listIdx x i = u).card
        = (((Finset.range x.length).filter fun i => listIdx x i < u) ∪
           ((Finset.range x.length).filter fun i => listIdx x i = u)).card :=
          (Finset.card_union_of_disjoint hdisj).symm
      _ ≤ ((Finset.range x.length).filter fun i => listIdx x i < v).card := by
          apply Finset.card_le_card
          intro i hi
          rw [Finset.mem_union, Finset.mem_filter, Finset.mem_filter] at hi
          rw [Finset.mem_filter]
          rcases hi with h | h
          · exact ⟨h.1, lt_trans h.2 huv⟩
          · exact ⟨h.1, h.2 ▸ huv⟩
  have e1 := cntEq_pos hu
  have e2 := cntEq_pos hv
  have c1 : (1 : ℝ) ≤ (cntEq x u : ℝ) := by exact_mod_cast e1
  have c2 : (1 : ℝ) ≤ (cntEq x v : ℝ) := by exact_mod_cast e2
  have hle : (cntLt x u : ℝ) + (cntEq x u : ℝ) ≤ (cntLt x v : ℝ) := by exact_mod_cast h1
  unfold rankVal
  linarith

theorem avgRanks_nonconst {x : List ℝ} (h : ¬ isConstL x) : ¬ isConstL (avgRanks x) := by
  have hx := nonempty_of_not_const h
  have hhead : x.headD 0 ∈ x := by
    cases x with
    | nil => exact absurd rfl hx
    | cons c t => exact List.mem_cons_self _ _
  rw [isConstL] at h
  push_neg at h
  obtain ⟨a, ha, hne⟩ := h
  intro hconst
  have r1 : rankVal x a ∈ avgRanks x := List.mem_map_of_mem _ ha
  have r2 : rankVal x (x.headD 0) ∈ avgRanks x := List.mem_map_of_mem _ hhead
  have heqr : rankVal x a = rankVal x (x.headD 0) :=
    (hconst _ r1).trans (hconst _ r2).symm
  rcases lt_trichotomy a (x.headD 0) with hlt | heq | hgt
  · exact absurd heqr (ne_of_lt (rankVal_lt ha hhead hlt))
  · exact hne heq
  · exact absurd heqr (ne_of_gt (rankVal_lt hhead ha hgt))

/-- C9 (amended): for a personality column with at least 3 valid paired
rows whose ratio values and economic values are each non-constant, the
engine returns defined Pearson and Spearman coefficients within [-1, 1]
and two-sided p-values within [0, 1]; for constant input the statistics
routines return undefined (NaN) values instead. -/
theorem c9_stat_bounds : ∀ (rows : List JoinRow) (cols : List String) (ycol : String)
    (i : ℕ) (c : String), cols[i]? = some c →
    3 ≤ (validPairs rows c ycol).length →
    ¬ isConstL ((validPairs rows c ycol).map Prod.fst) →
    ¬ isConstL ((validPairs rows c ycol).map Prod.snd) →
    ∃ r p sr sp : ℝ,
      (compute_correlations rows cols ycol)[i]? =
        some ⟨c, some r, some p, some sr, some sp, (validPairs rows c ycol).length⟩ ∧
      |r| ≤ 1 ∧ 0 ≤ p ∧ p ≤ 1 ∧ |sr| ≤ 1 ∧ 0 ≤ sp ∧ sp ≤ 1 := by
  intro rows cols ycol i c hc hge hncx hncy
  have hlen : ((validPairs rows c ycol).map Prod.snd).length =
      ((validPairs rows c ycol).map Prod.fst).length := by simp
  have hxlen : ((validPairs rows c ycol).map Prod.fst).length =
      (validPairs rows c ycol).length := by simp
  have hpr := pearsonRval_abs_le hlen hncx hncy
  have hpe : statsPearsonr ((validPairs rows c ycol).map Prod.fst)
      ((validPairs rows c ycol).map Prod.snd) =
      (some (pearsonRval ((validPairs rows c ycol).map Prod.fst)
        ((validPairs rows c ycol).map Prod.snd)),
       some (pearsonPval ((validPairs rows c ycol).map Prod.fst).length
        (pearsonRval ((validPairs rows c ycol).map Prod.fst)
          ((validPairs rows c ycol).map Prod.snd)))) := by
    unfold statsPearsonr
    rw [if_neg (not_or.mpr ⟨hncx, hncy⟩)]
  have hn3 : 3 ≤ ((validPairs rows c ycol).map Prod.fst).length := by
    rw [hxlen]
    exact hge
  have hppb := pearsonPval_bounds hn3 hpr
  have hrx := avgRanks_nonconst hncx
  have hry := avgRanks_nonconst hncy
  have hrlen : (avgRanks ((validPairs rows c ycol).map Prod.snd)).length =
      (avgRanks ((validPairs rows c ycol).map Prod.fst)).length := by
    simp [avgRanks]
  have hsr := pearsonRval_abs_le hrlen hrx hry
  have hsp : statsSpearmanr ((validPairs rows c ycol).map Prod.fst)
      ((validPairs rows c ycol).map Prod.snd) =
      (some (pearsonRval (avgRanks ((validPairs rows c ycol).map Prod.fst))
        (avgRanks ((validPairs rows c ycol).map Prod.snd))),
       some (spearmanPval ((validPairs rows c ycol).map Prod.fst).length
        (pearsonRval (avgRanks ((validPairs rows c ycol).map Prod.fst))
          (avgRanks ((validPairs rows c ycol).map Prod.snd))))) := by
    unfold statsSpearmanr
    rw [if_neg (not_or.mpr ⟨hrx, hry⟩)]
  have hspb := spearmanPval_bounds
    (pearsonRval (avgRanks ((validPairs rows c ycol).map Prod.fst))
      (avgRanks ((validPairs rows c ycol).map Prod.snd))) hn3
  have hmap : (compute_correlations rows cols ycol)[i]? =
      some (corrRowFor rows c ycol) := by
    rw [compute_correlations, List.getElem?_map, hc, Option.map_some']
  refine ⟨_, _, _, _, ?_, hpr, hppb.1, hppb.2, hsr, hspb.1, hspb.2⟩
  rw [hmap]
  simp only [corrRowFor]
  rw [if_neg (by omega), hpe, hsp]

theorem c9_stat_bounds_witness :
    ∃ r p sr sp : ℝ,
      (compute_correlations
        [⟨"a", "a", [("A", some 0), ("Y_value", some 0)]⟩,
         ⟨"b", "b", [("A", some 1), ("Y_value", some 1)]⟩,
         ⟨"c", "c", [("A", some 2), ("Y_value", some 2)]⟩]
        ["A"] "Y_value")[0]? =
        some ⟨"A", some r, some p, some sr, some sp,
          (validPairs
            [⟨"a", "a", [("A", some 0), ("Y_value", some 0)]⟩,
             ⟨"b", "b", [("A", some 1), ("Y_value", some 1)]⟩,
             ⟨"c", "c", [("A", some 2), ("Y_value", some 2)]⟩]
            "A" "Y_value").length⟩ ∧
      |r| ≤ 1 ∧ 0 ≤ p ∧ p ≤ 1 ∧ |sr| ≤ 1 ∧ 0 ≤ sp ∧ sp ≤ 1 := by
  apply c9_stat_bounds
  · rfl
  · show 3 ≤ (validPairs _ "A" "Y_value").length
    simp [validPairs, cellLookup]
  · intro hconst
    have h1 := hconst 1 (by simp [validPairs, cellLookup])
    have h0 : ((validPairs
        [⟨"a", "a", [("A", some 0), ("Y_value", some 0)]⟩,
         ⟨"b", "b", [("A", some 1), ("Y_value", some 1)]⟩,
         ⟨"c", "c", [("A", some 2), ("Y_value", some 2)]⟩]
        "A" "Y_value").map Prod.fst).headD 0 = 0 := by
      simp [validPairs, cellLookup]
    rw [h0] at h1
    exact one_ne_zero h1
  · intro hconst
    have h1 := hconst 1 (by simp [validPairs, cellLookup])
    have h0 : ((validPairs
        [⟨"a", "a", [("A", some 0), ("Y_value", some 0)]⟩,
         ⟨"b", "b", [("A", some 1), ("Y_value", some 1)]⟩,
         ⟨"c", "c", [("A", some 2), ("Y_value", some 2)]⟩]
        "A" "Y_value").map Prod.snd).headD 0 = 0 := by
      simp [validPairs, cellLookup]
    rw [h0] at h1
    exact one_ne_zero h1

theorem c9_constant_column_counterexample :
    (compute_correlations
      [⟨"a", "a", [("A", some 1), ("Y_value", some 1)]⟩,
       ⟨"b", "b", [("A", some 1), ("Y_value", some 2)]⟩,
       ⟨"c", "c", [("A", some 1), ("Y_value", some 3)]⟩]
      ["A"] "Y_value")[0]? =
      some ⟨"A", none, none, none, none, 3⟩ := by
  have hvp : validPairs
      [⟨"a", "a", [("A", some 1), ("Y_value", some 1)]⟩,
       ⟨"b", "b", [("A", some 1), ("Y_value", some 2)]⟩,
       ⟨"c", "c", [("A", some 1), ("Y_value", some 3)]⟩]
      "A" "Y_value" = [(1, 1), (1, 2), (1, 3)] := by
    simp [validPairs, cellLookup]
  have hconst : isConstL (([(1, 1), (1, 2), (1, 3)] : List (ℝ × ℝ)).map Prod.fst) := by
    intro a ha
    simp at ha
    simp [ha]
  have hpe : statsPearsonr (([(1, 1), (1, 2), (1, 3)] : List (ℝ × ℝ)).map Prod.fst)
      (([(1, 1), (1, 2), (1, 3)] : List (ℝ × ℝ)).map Prod.snd) = (none, none) := by
    unfold statsPearsonr
    rw [if_pos (Or.inl hconst)]
  have hconstr : isConstL (avgRanks (([(1, 1), (1, 2), (1, 3)] : List (ℝ × ℝ)).map Prod.fst)) := by
    intro a ha
    obtain ⟨b, hb, hab⟩ := List.mem_map.mp ha
    have hb1 : b = 1 := by
      simp only [List.map_cons, List.map_nil, List.mem_cons, List.not_mem_nil, or_false] at hb
      rcases hb with h | h | h <;> exact h
    subst hb1
    rw [← hab]
    rfl
  have hsp : statsSpearmanr (([(1, 1), (1, 2), (1, 3)] : List (ℝ × ℝ)).map Prod.fst)
      (([(1, 1), (1, 2), (1, 3)] : List (ℝ × ℝ)).map Prod.snd) = (none, none) := by
    unfold statsSpearmanr
    rw [if_pos (Or.inl hconstr)]
  rw [compute_correlations, List.getElem?_map]
  show Option.map _ (some "A") = _
  rw [Option.map_some']
  simp only [corrRowFor, hvp]
  rw [if_neg (by norm_num), hpe, hsp]
  rfl
